import Mathlib

/-!
Verification of the JazzPlayer real-time audio-analysis core.

The JavaScript sources (`src/utils/pitchDetection.ts`, `src/utils/audioAnalysis.ts`)
are embedded shallowly:

* JS numbers in the pitch detector and the spectral feature extractors are modelled
  by `QNum`: an exact rational together with the IEEE special values `inf`, `ninf`
  and `nan`.  The arithmetic on finite values is exact (no rounding, and the two
  IEEE zeros are collapsed to `0`); the propagation of the special values follows
  IEEE-754 / JS semantics, which is what the claims about "never NaN / never 0 Hz"
  are about.
* JS numbers in the beat detector and the note mapper are modelled the same way
  over the real numbers (`RNum`), because those functions use `Math.sqrt`,
  `Math.log2` and `Math.pow` with irrational results.
* `Uint8Array` spectra are lists of naturals, `Float32Array` sample windows are
  lists of `QNum`, and the module-level mutable beat history is threaded through
  `detectBeat` as explicit state.
* JS `Math.round` is round-half-up, which is Mathlib's `round`; the JS `%` on
  integer-valued numbers is `Int.tmod`; `Math.floor` is `Int.floor` of the exact
  quotient.
-/

/-! ### Exact-rational model of JS numbers (pitch detector, spectral features) -/

inductive QNum where
  | fin (q : ℚ)
  | inf
  | ninf
  | nan
deriving DecidableEq

namespace QNum

def isFin : QNum → Bool
  | fin _ => true
  | _ => false

def toQ : QNum → ℚ
  | fin q => q
  | _ => 0

def add : QNum → QNum → QNum
  | nan, _ => nan
  | _, nan => nan
  | fin a, fin b => fin (a + b)
  | inf, ninf => nan
  | ninf, inf => nan
  | inf, _ => inf
  | _, inf => inf
  | ninf, _ => ninf
  | _, ninf => ninf

def sub : QNum → QNum → QNum
  | nan, _ => nan
  | _, nan => nan
  | fin a, fin b => fin (a - b)
  | inf, inf => nan
  | ninf, ninf => nan
  | inf, _ => inf
  | _, inf => ninf
  | ninf, _ => ninf
  | _, ninf => inf

def mul : QNum → QNum → QNum
  | nan, _ => nan
  | _, nan => nan
  | fin a, fin b => fin (a * b)
  | fin a, inf => if a = 0 then nan else if 0 < a then inf else ninf
  | inf, fin a => if a = 0 then nan else if 0 < a then inf else ninf
  | fin a, ninf => if a = 0 then nan else if 0 < a then ninf else inf
  | ninf, fin a => if a = 0 then nan else if 0 < a then ninf else inf
  | inf, inf => inf
  | inf, ninf => ninf
  | ninf, inf => ninf
  | ninf, ninf => inf

def div : QNum → QNum → QNum
  | nan, _ => nan
  | _, nan => nan
  | fin a, fin b =>
    if b = 0 then (if a = 0 then nan else if 0 < a then inf else ninf)
    else fin (a / b)
  | fin _, inf => fin 0
  | fin _, ninf => fin 0
  | inf, fin b => if 0 ≤ b then inf else ninf
  | ninf, fin b => if 0 ≤ b then ninf else inf
  | inf, inf => nan
  | inf, ninf => nan
  | ninf, inf => nan
  | ninf, ninf => nan

def blt : QNum → QNum → Bool
  | nan, _ => false
  | _, nan => false
  | fin a, fin b => decide (a < b)
  | fin _, inf => true
  | inf, fin _ => false
  | inf, inf => false
  | ninf, fin _ => true
  | fin _, ninf => false
  | ninf, inf => true
  | inf, ninf => false
  | ninf, ninf => false

def ble : QNum → QNum → Bool
  | nan, _ => false
  | _, nan => false
  | fin a, fin b => decide (a ≤ b)
  | fin _, inf => true
  | inf, fin _ => false
  | inf, inf => true
  | ninf, fin _ => true
  | fin _, ninf => false
  | ninf, inf => true
  | inf, ninf => false
  | ninf, ninf => true

end QNum

/-! ### `detectPitchYIN` (src/utils/pitchDetection.ts lines 44-100)

The imperative `yinBuffer` array is translated functionally: `yinDiff` is the
value `yinBuffer[tau]` after step 1 (the raw difference function), `yinRunningSum`
is the value of `runningSum` when the step-2 loop reaches `tau` (the sum of the
raw differences `d(1) + ... + d(tau)`), and `yinNorm` is `yinBuffer[tau]` after
step 2 (cumulative-mean normalisation, with `yinBuffer[0] = 1`).  The step-3
threshold scan and the inner descent-to-local-minimum loop are `yinFindTau` and
`yinDescend`, given enough fuel for the bounded loops.  All array reads
`buffer[i]`, `buffer[i + tau]` are in bounds (`i + tau ≤ length - 2`), so `getD`
with an arbitrary default is faithful. -/

def yinGet (buf : List QNum) (i : ℕ) : QNum := buf.getD i (QNum.fin 0)

def yinDiff (buf : List QNum) (half : ℕ) (tau : ℕ) : QNum :=
  (List.range half).foldl
    (fun acc i =>
      acc.add (((yinGet buf i).sub (yinGet buf (i + tau))).mul
        ((yinGet buf i).sub (yinGet buf (i + tau)))))
    (QNum.fin 0)

def yinRunningSum (buf : List QNum) (half : ℕ) (tau : ℕ) : QNum :=
  (List.range tau).foldl (fun acc t => acc.add (yinDiff buf half (t + 1))) (QNum.fin 0)

def yinNorm (buf : List QNum) (half : ℕ) (tau : ℕ) : QNum :=
  if tau = 0 then QNum.fin 1
  else (yinDiff buf half tau).mul ((QNum.fin (tau : ℚ)).div (yinRunningSum buf half tau))

def yinDescend (f : ℕ → QNum) (half : ℕ) : ℕ → ℕ → ℕ
  | 0, tau => tau
  | fuel + 1, tau =>
    if tau + 1 < half ∧ (f (tau + 1)).blt (f tau) = true then
      yinDescend f half fuel (tau + 1)
    else tau

def yinFindTau (f : ℕ → QNum) (threshold : QNum) (half : ℕ) : ℕ → ℕ → Option ℕ
  | 0, _ => none
  | fuel + 1, tau =>
    if tau < half then
      if (f tau).blt threshold = true then some (yinDescend f half (half - tau) tau)
      else yinFindTau f threshold half fuel (tau + 1)
    else none

def yinRefine (f : ℕ → QNum) (half : ℕ) (sampleRate : QNum) (tauEstimate : ℕ) : QNum :=
  let x0 := if tauEstimate < 1 then tauEstimate else tauEstimate - 1
  let x2 := if tauEstimate + 1 < half then tauEstimate + 1 else tauEstimate
  let betterTau : QNum :=
    if x0 = tauEstimate then
      (if (f tauEstimate).ble (f x2) = true then QNum.fin (tauEstimate : ℚ)
       else QNum.fin (x2 : ℚ))
    else if x2 = tauEstimate then
      (if (f tauEstimate).ble (f x0) = true then QNum.fin (tauEstimate : ℚ)
       else QNum.fin (x0 : ℚ))
    else
      (QNum.fin (tauEstimate : ℚ)).add
        (((f x2).sub (f x0)).div
          ((QNum.fin 2).mul
            ((((QNum.fin 2).mul (f tauEstimate)).sub (f x2)).sub (f x0))))
  sampleRate.div betterTau

def detectPitchYIN (buffer : List QNum) (sampleRate : QNum) (threshold : QNum) :
    Option QNum :=
  let half := buffer.length / 2
  let f := yinNorm buffer half
  (yinFindTau f threshold half half 2).map (yinRefine f half sampleRate)

/-! ### Helper lemmas for the YIN development -/

theorem yinGet_replicate_zero (n i : ℕ) :
    yinGet (List.replicate n (QNum.fin 0)) i = QNum.fin 0 := by
  unfold yinGet
  induction n generalizing i with
  | zero => simp [List.getD]
  | succ m ih =>
    cases i with
    | zero => simp [List.replicate, List.getD]
    | succ j => simpa [List.replicate, List.getD] using ih j

theorem yinDiff_replicate_zero (n half tau : ℕ) :
    yinDiff (List.replicate n (QNum.fin 0)) half tau = QNum.fin 0 := by
  unfold yinDiff
  have h : ∀ (l : List ℕ),
      l.foldl
        (fun acc i =>
          acc.add (((yinGet (List.replicate n (QNum.fin 0)) i).sub
              (yinGet (List.replicate n (QNum.fin 0)) (i + tau))).mul
            ((yinGet (List.replicate n (QNum.fin 0)) i).sub
              (yinGet (List.replicate n (QNum.fin 0)) (i + tau)))))
        (QNum.fin 0) = QNum.fin 0 := by
    intro l
    induction l with
    | nil => rfl
    | cons x xs ih =>
      simpa [yinGet_replicate_zero, QNum.sub, QNum.mul, QNum.add] using ih
  exact h _

theorem yinRunningSum_replicate_zero (n half tau : ℕ) :
    yinRunningSum (List.replicate n (QNum.fin 0)) half tau = QNum.fin 0 := by
  unfold yinRunningSum
  have h : ∀ (l : List ℕ),
      l.foldl (fun acc t => acc.add (yinDiff (List.replicate n (QNum.fin 0)) half (t + 1)))
        (QNum.fin 0) = QNum.fin 0 := by
    intro l
    induction l with
    | nil => rfl
    | cons x xs ih =>
      simpa [yinDiff_replicate_zero, QNum.add] using ih
  exact h _

theorem yinNorm_replicate_nan (n half tau : ℕ) (htau : 1 ≤ tau) :
    yinNorm (List.replicate n (QNum.fin 0)) half tau = QNum.nan := by
  unfold yinNorm
  rw [if_neg (by omega)]
  rw [yinDiff_replicate_zero, yinRunningSum_replicate_zero]
  have htq : (0 : ℚ) < (tau : ℚ) := by exact_mod_cast htau
  simp [QNum.div, QNum.mul, htq, htq.ne']

theorem yinFindTau_none (f : ℕ → QNum) (θ : QNum) (half : ℕ)
    (h : ∀ tau, 1 ≤ tau → (f tau).blt θ = false) :
    ∀ fuel start, 1 ≤ start → yinFindTau f θ half fuel start = none := by
  intro fuel
  induction fuel with
  | zero => intro start _; rfl
  | succ m ih =>
    intro start hstart
    unfold yinFindTau
    by_cases hs : start < half
    · rw [if_pos hs, h start hstart]
      simpa using ih (start + 1) (by omega)
    · rw [if_neg hs]

/-! ### Rational shadows of the YIN buffers (for buffers of finite samples)

`dQ`, `rQ`, `vQ` are the exact rational values of the raw difference function,
the running sum, and the normalised difference, used to reason about
`detectPitchYIN` on buffers whose entries are all finite. -/

def qv (buf : List QNum) (i : ℕ) : ℚ := (yinGet buf i).toQ

def dQ (buf : List QNum) (half tau : ℕ) : ℚ :=
  ((List.range half).map
    (fun i => (qv buf i - qv buf (i + tau)) * (qv buf i - qv buf (i + tau)))).sum

def rQ (buf : List QNum) (half tau : ℕ) : ℚ :=
  ((List.range tau).map (fun s => dQ buf half (s + 1))).sum

def vQ (buf : List QNum) (half tau : ℕ) : ℚ :=
  dQ buf half tau * ((tau : ℚ) / rQ buf half tau)

theorem yinGet_fin (buf : List QNum) (hfin : buf.all QNum.isFin = true) (i : ℕ) :
    yinGet buf i = QNum.fin (qv buf i) := by
  unfold qv yinGet
  induction buf generalizing i with
  | nil => simp [List.getD, QNum.toQ]
  | cons x xs ih =>
    rw [List.all_cons, Bool.and_eq_true] at hfin
    cases i with
    | zero =>
      cases x with
      | fin q => simp [List.getD, QNum.toQ]
      | inf => simp [QNum.isFin] at hfin
      | ninf => simp [QNum.isFin] at hfin
      | nan => simp [QNum.isFin] at hfin
    | succ j => simpa [List.getD] using ih hfin.2 j

theorem foldl_add_fin (g : ℕ → QNum) (gq : ℕ → ℚ) (hg : ∀ i, g i = QNum.fin (gq i)) :
    ∀ (l : List ℕ) (a : ℚ),
      l.foldl (fun acc i => acc.add (g i)) (QNum.fin a) = QNum.fin (a + (l.map gq).sum) := by
  intro l
  induction l with
  | nil => intro a; simp
  | cons x xs ih =>
    intro a
    rw [List.foldl_cons, hg x]
    have hstep : (QNum.fin a).add (QNum.fin (gq x)) = QNum.fin (a + gq x) := rfl
    rw [hstep, ih (a + gq x), List.map_cons, List.sum_cons]
    ring_nf

theorem yinDiff_eq (buf : List QNum) (hfin : buf.all QNum.isFin = true) (half tau : ℕ) :
    yinDiff buf half tau = QNum.fin (dQ buf half tau) := by
  unfold yinDiff dQ
  rw [foldl_add_fin _ (fun i => (qv buf i - qv buf (i + tau)) * (qv buf i - qv buf (i + tau)))
    (fun i => by rw [yinGet_fin buf hfin i, yinGet_fin buf hfin (i + tau)]; rfl)]
  rw [zero_add]

theorem dQ_nonneg (buf : List QNum) (half tau : ℕ) : 0 ≤ dQ buf half tau := by
  apply List.sum_nonneg
  intro x hx
  rcases List.mem_map.mp hx with ⟨i, _, rfl⟩
  exact mul_self_nonneg _

theorem yinRunningSum_eq (buf : List QNum) (hfin : buf.all QNum.isFin = true)
    (half tau : ℕ) : yinRunningSum buf half tau = QNum.fin (rQ buf half tau) := by
  unfold yinRunningSum rQ
  rw [foldl_add_fin _ (fun s => dQ buf half (s + 1)) (fun s => yinDiff_eq buf hfin half (s + 1))]
  rw [zero_add]

theorem rQ_nonneg (buf : List QNum) (half tau : ℕ) : 0 ≤ rQ buf half tau := by
  apply List.sum_nonneg
  intro x hx
  rcases List.mem_map.mp hx with ⟨s, _, rfl⟩
  exact dQ_nonneg buf half (s + 1)

theorem rQ_succ (buf : List QNum) (half tau : ℕ) :
    rQ buf half (tau + 1) = rQ buf half tau + dQ buf half (tau + 1) := by
  unfold rQ
  rw [List.range_succ, List.map_append, List.sum_append]
  simp

theorem dQ_le_rQ (buf : List QNum) (half : ℕ) :
    ∀ tau, 1 ≤ tau → dQ buf half tau ≤ rQ buf half tau := by
  intro tau htau
  cases tau with
  | zero => omega
  | succ s =>
    rw [rQ_succ]
    have := rQ_nonneg buf half s
    linarith

theorem yinNorm_eq_nan (buf : List QNum) (hfin : buf.all QNum.isFin = true)
    (half tau : ℕ) (htau : 1 ≤ tau) (hr : rQ buf half tau = 0) :
    yinNorm buf half tau = QNum.nan := by
  have hd : dQ buf half tau = 0 := by
    have h1 := dQ_le_rQ buf half tau htau
    have h2 := dQ_nonneg buf half tau
    linarith [hr ▸ h1]
  unfold yinNorm
  rw [if_neg (by omega), yinDiff_eq buf hfin, yinRunningSum_eq buf hfin, hd, hr]
  have htq : (0 : ℚ) < (tau : ℚ) := by exact_mod_cast htau
  simp [QNum.div, QNum.mul, htq, htq.ne']

theorem yinNorm_eq_fin (buf : List QNum) (hfin : buf.all QNum.isFin = true)
    (half tau : ℕ) (htau : 1 ≤ tau) (hr : rQ buf half tau ≠ 0) :
    yinNorm buf half tau = QNum.fin (vQ buf half tau) := by
  unfold yinNorm vQ
  rw [if_neg (by omega), yinDiff_eq buf hfin, yinRunningSum_eq buf hfin]
  simp [QNum.div, QNum.mul, hr]

theorem vQ_nonneg (buf : List QNum) (half tau : ℕ) (hr : rQ buf half tau ≠ 0) :
    0 ≤ vQ buf half tau := by
  have h1 := rQ_nonneg buf half tau
  have h2 := dQ_nonneg buf half tau
  have h3 : 0 < rQ buf half tau := lt_of_le_of_ne h1 (Ne.symm hr)
  unfold vQ
  positivity

theorem yinNorm_shape (buf : List QNum) (hfin : buf.all QNum.isFin = true)
    (half tau : ℕ) (htau : 1 ≤ tau) :
    (∃ q, 0 ≤ q ∧ yinNorm buf half tau = QNum.fin q) ∨
      (yinNorm buf half tau = QNum.nan ∧ rQ buf half tau = 0) := by
  by_cases hr : rQ buf half tau = 0
  · exact Or.inr ⟨yinNorm_eq_nan buf hfin half tau htau hr, hr⟩
  · exact Or.inl ⟨vQ buf half tau, vQ_nonneg buf half tau hr,
      yinNorm_eq_fin buf hfin half tau htau hr⟩

/-! ### The step-3 search loops: specifications of `yinDescend` and `yinFindTau` -/

theorem yinDescend_ge (f : ℕ → QNum) (half : ℕ) :
    ∀ fuel tau, tau ≤ yinDescend f half fuel tau := by
  intro fuel
  induction fuel with
  | zero => intro tau; exact le_refl _
  | succ m ih =>
    intro tau
    unfold yinDescend
    split
    · exact le_trans (by omega) (ih (tau + 1))
    · exact le_refl _

theorem yinDescend_lt_half (f : ℕ → QNum) (half : ℕ) :
    ∀ fuel tau, tau < half → yinDescend f half fuel tau < half := by
  intro fuel
  induction fuel with
  | zero => intro tau h; exact h
  | succ m ih =>
    intro tau h
    unfold yinDescend
    split
    · next hc => exact ih (tau + 1) hc.1
    · exact h

theorem yinDescend_le_val (f : ℕ → QNum) (half : ℕ)
    (hshape : ∀ s, 1 ≤ s → (∃ q, 0 ≤ q ∧ f s = QNum.fin q) ∨ f s = QNum.nan) :
    ∀ fuel tau v, f tau = QNum.fin v →
      ∃ w, w ≤ v ∧ f (yinDescend f half fuel tau) = QNum.fin w := by
  intro fuel
  induction fuel with
  | zero => intro tau v hv; exact ⟨v, le_refl v, hv⟩
  | succ m ih =>
    intro tau v hv
    unfold yinDescend
    split
    · next hc =>
      rcases hshape (tau + 1) (by omega) with ⟨w1, _, hw1⟩ | hnan
      · have hlt : w1 < v := by
          have hb := hc.2
          rw [hw1, hv] at hb
          simpa [QNum.blt] using hb
        rcases ih (tau + 1) w1 hw1 with ⟨w, hwle, hw⟩
        exact ⟨w, le_trans hwle (le_of_lt hlt), hw⟩
      · exfalso
        have hb := hc.2
        rw [hnan, hv] at hb
        simp [QNum.blt] at hb
    · exact ⟨v, le_refl v, hv⟩

theorem yinDescend_stop (f : ℕ → QNum) (half : ℕ) :
    ∀ fuel tau, half - tau ≤ fuel →
      yinDescend f half fuel tau + 1 < half →
      (f (yinDescend f half fuel tau + 1)).blt (f (yinDescend f half fuel tau)) = false := by
  intro fuel
  induction fuel with
  | zero =>
    intro tau hfuel hlt
    unfold yinDescend at hlt ⊢
    omega
  | succ m ih =>
    intro tau hfuel hlt
    unfold yinDescend at hlt ⊢
    by_cases hc : tau + 1 < half ∧ (f (tau + 1)).blt (f tau) = true
    · rw [if_pos hc] at hlt ⊢
      exact ih (tau + 1) (by omega) hlt
    · rw [if_neg hc] at hlt ⊢
      rcases Decidable.not_and_iff_or_not.mp hc with h1 | h2
      · omega
      · simpa using h2

theorem yinDescend_prev (f : ℕ → QNum) (half : ℕ) :
    ∀ fuel tau, yinDescend f half fuel tau ≠ tau →
      (f (yinDescend f half fuel tau)).blt (f (yinDescend f half fuel tau - 1)) = true := by
  intro fuel
  induction fuel with
  | zero => intro tau h; exact absurd rfl h
  | succ m ih =>
    intro tau h
    unfold yinDescend at h ⊢
    by_cases hc : tau + 1 < half ∧ (f (tau + 1)).blt (f tau) = true
    · rw [if_pos hc] at h ⊢
      by_cases heq : yinDescend f half m (tau + 1) = tau + 1
      · rw [heq]
        simpa using hc.2
      · exact ih (tau + 1) heq
    · rw [if_neg hc] at h
      exact absurd rfl h

theorem yinFindTau_some (f : ℕ → QNum) (θ : QNum) (half : ℕ) :
    ∀ fuel start T, yinFindTau f θ half fuel start = some T →
      ∃ tE, start ≤ tE ∧ tE < half ∧ (f tE).blt θ = true ∧
        (∀ s, start ≤ s → s < tE → (f s).blt θ = false) ∧
        T = yinDescend f half (half - tE) tE := by
  intro fuel
  induction fuel with
  | zero => intro start T h; exact absurd h (by simp [yinFindTau])
  | succ m ih =>
    intro start T h
    unfold yinFindTau at h
    by_cases hs : start < half
    · rw [if_pos hs] at h
      by_cases hb : (f start).blt θ = true
      · rw [if_pos hb] at h
        refine ⟨start, le_refl _, hs, hb, ?_, ?_⟩
        · intro s h1 h2; omega
        · exact (Option.some_injective _ h).symm
      · rw [if_neg hb] at h
        rcases ih (start + 1) T h with ⟨tE, h1, h2, h3, h4, h5⟩
        refine ⟨tE, by omega, h2, h3, ?_, h5⟩
        intro s hs1 hs2
        rcases Nat.eq_or_lt_of_le hs1 with rfl | hlt
        · simpa using hb
        · exact h4 s (by omega) hs2
    · rw [if_neg hs] at h
      exact absurd h (by simp)

theorem qnum_div_fin_pos (r m : ℚ) (hr : 0 < r) (hm : 0 < m) :
    ∃ q : ℚ, 0 < q ∧ (QNum.fin r).div (QNum.fin m) = QNum.fin q :=
  ⟨r / m, div_pos hr hm, by simp [QNum.div, hm.ne']⟩

theorem qnum_parabola (r s1 s2 w Tq : ℚ) (hr : 0 < r) (hTq : 2 ≤ Tq)
    (h12 : s1 ≤ s2) (h1w : s1 < w) :
    ∃ q : ℚ, 0 < q ∧
      (QNum.fin r).div ((QNum.fin Tq).add (((QNum.fin s2).sub (QNum.fin w)).div
        ((QNum.fin 2).mul ((((QNum.fin 2).mul (QNum.fin s1)).sub (QNum.fin s2)).sub
          (QNum.fin w))))) = QNum.fin q := by
  have hD : 2 * (2 * s1 - s2 - w) < 0 := by linarith
  have hD0 : 2 * (2 * s1 - s2 - w) ≠ 0 := ne_of_lt hD
  have hkey : (s2 - w) / (2 * (2 * s1 - s2 - w)) + 1 / 2 =
      2 * (s1 - w) / (2 * (2 * s1 - s2 - w)) := by
    field_simp
    ring
  have hpos : 0 < 2 * (s1 - w) / (2 * (2 * s1 - s2 - w)) :=
    div_pos_iff.mpr (Or.inr ⟨by linarith, hD⟩)
  have hBT : 0 < Tq + (s2 - w) / (2 * (2 * s1 - s2 - w)) := by linarith
  refine ⟨r / (Tq + (s2 - w) / (2 * (2 * s1 - s2 - w))), div_pos hr hBT, ?_⟩
  have e1 : (QNum.fin s2).sub (QNum.fin w) = QNum.fin (s2 - w) := rfl
  have e2 : (((QNum.fin 2).mul (QNum.fin s1)).sub (QNum.fin s2)).sub (QNum.fin w) =
      QNum.fin (2 * s1 - s2 - w) := rfl
  have e3 : (QNum.fin 2).mul (QNum.fin (2 * s1 - s2 - w)) =
      QNum.fin (2 * (2 * s1 - s2 - w)) := rfl
  rw [e1, e2, e3]
  have e4 : (QNum.fin (s2 - w)).div (QNum.fin (2 * (2 * s1 - s2 - w))) =
      QNum.fin ((s2 - w) / (2 * (2 * s1 - s2 - w))) := by
    simp [QNum.div, hD0]
  rw [e4]
  have e5 : (QNum.fin Tq).add (QNum.fin ((s2 - w) / (2 * (2 * s1 - s2 - w)))) =
      QNum.fin (Tq + (s2 - w) / (2 * (2 * s1 - s2 - w))) := rfl
  rw [e5]
  simp [QNum.div, hBT.ne']

/-- Claim C2: whenever `detectPitchYIN` returns a non-absent result (on a sample
window whose entries are all finite, with a finite positive sample rate and a
finite threshold at most `1`, which covers the default `0.1`), the result is a
finite strictly positive frequency — never `0`, NaN or an infinity.  In
particular the parabolic-interpolation step never produces a zero, infinite or
NaN refined lag: the refined lag stays within `1/2` of the locked integer lag
`tauEstimate ≥ 2`, because at the locked local minimum `d'(tauEstimate)` is
strictly below both neighbours' values, making the interpolation denominator
strictly negative. -/
theorem detectPitchYIN_positive (buffer : List QNum) (r t : ℚ) (v : QNum)
    (hfin : buffer.all QNum.isFin = true) (hr : 0 < r) (ht : t ≤ 1)
    (hres : detectPitchYIN buffer (QNum.fin r) (QNum.fin t) = some v) :
    ∃ q : ℚ, 0 < q ∧ v = QNum.fin q := by
  simp only [detectPitchYIN] at hres
  set half := buffer.length / 2 with hhalf
  set f := yinNorm buffer half with hf
  have hshape : ∀ s, 1 ≤ s → (∃ q, 0 ≤ q ∧ f s = QNum.fin q) ∨ f s = QNum.nan := by
    intro s hs
    rcases yinNorm_shape buffer hfin half s hs with h | h
    · exact Or.inl h
    · exact Or.inr h.1
  cases hfind : yinFindTau f (QNum.fin t) half half 2 with
  | none => rw [hfind] at hres; simp at hres
  | some T =>
    rw [hfind, Option.map_some'] at hres
    have hveq : yinRefine f half (QNum.fin r) T = v := Option.some_injective _ hres
    simp only [yinRefine] at hveq
    obtain ⟨tE, htE2, htEh, htEb, htEfirst, hTdef⟩ :=
      yinFindTau_some f (QNum.fin t) half half 2 T hfind
    obtain ⟨v0, hv00, hv0⟩ : ∃ q, 0 ≤ q ∧ f tE = QNum.fin q := by
      rcases hshape tE (by omega) with h | hnanE
      · exact h
      · rw [hnanE] at htEb; simp [QNum.blt] at htEb
    have hv0t : v0 < t := by
      rw [hv0] at htEb
      simpa [QNum.blt] using htEb
    have hTge : tE ≤ T := by rw [hTdef]; exact yinDescend_ge f half _ tE
    have hT2 : 2 ≤ T := le_trans htE2 hTge
    have hTh : T < half := by rw [hTdef]; exact yinDescend_lt_half f half _ tE htEh
    obtain ⟨s1, hs1le, hs1⟩ : ∃ s1, s1 ≤ v0 ∧ f T = QNum.fin s1 := by
      obtain ⟨w, h1, h2⟩ := yinDescend_le_val f half hshape (half - tE) tE v0 hv0
      exact ⟨w, h1, by rw [hTdef]; exact h2⟩
    have hs1t : s1 < t := lt_of_le_of_lt hs1le hv0t
    have hstop := yinDescend_stop f half (half - tE) tE (le_refl _)
    rw [← hTdef] at hstop
    have hprev := yinDescend_prev f half (half - tE) tE
    rw [← hTdef] at hprev
    have hrT : rQ buffer half T ≠ 0 := by
      intro h0
      rw [hf, yinNorm_eq_nan buffer hfin half T (by omega) h0] at hs1
      exact QNum.noConfusion hs1
    have hs1vQ : s1 = vQ buffer half T := by
      have hfe := yinNorm_eq_fin buffer hfin half T (by omega) hrT
      rw [hf, hfe] at hs1
      injection hs1 with h
      exact h.symm
    by_cases hx2 : T + 1 < half
    · -- interior case: real parabolic interpolation
      have hstop2 : (f (T + 1)).blt (f T) = false := hstop hx2
      have hrTpos : 0 < rQ buffer half T :=
        lt_of_le_of_ne (rQ_nonneg _ _ _) (Ne.symm hrT)
      have hrT1 : rQ buffer half (T + 1) ≠ 0 := by
        rw [rQ_succ]
        have := dQ_nonneg buffer half (T + 1)
        intro h0
        linarith
      have hfT1 : f (T + 1) = QNum.fin (vQ buffer half (T + 1)) := by
        rw [hf]
        exact yinNorm_eq_fin buffer hfin half (T + 1) (by omega) hrT1
      have hs2ge : s1 ≤ vQ buffer half (T + 1) := by
        rw [hfT1, hs1] at hstop2
        simpa [QNum.blt, not_lt] using hstop2
      have hs0 : ∃ w, f (T - 1) = QNum.fin w ∧ s1 < w := by
        by_cases hTeq : T = tE
        · by_cases hT3 : 3 ≤ T
          · have hfirst := htEfirst (T - 1) (by omega) (by omega)
            rcases hshape (T - 1) (by omega) with ⟨w, hwnn, hw⟩ | hnan
            · refine ⟨w, hw, ?_⟩
              rw [hw] at hfirst
              have hwt : ¬ (w < t) := by simpa [QNum.blt] using hfirst
              linarith
            · exfalso
              have hr0 : rQ buffer half (T - 1) = 0 := by
                by_contra hne
                rw [hf, yinNorm_eq_fin buffer hfin half (T - 1) (by omega) hne] at hnan
                exact QNum.noConfusion hnan
              have hrTval : rQ buffer half T = dQ buffer half T := by
                have hsucc := rQ_succ buffer half (T - 1)
                rw [show T - 1 + 1 = T by omega] at hsucc
                rw [hsucc, hr0, zero_add]
              have hdT : dQ buffer half T ≠ 0 := by rw [← hrTval]; exact hrT
              have hs1val : s1 = (T : ℚ) := by
                rw [hs1vQ]
                unfold vQ
                rw [hrTval]
                field_simp
              have hT3q : (3 : ℚ) ≤ (T : ℚ) := by exact_mod_cast hT3
              rw [hs1val] at hs1t
              linarith
          · have hT2e : T = 2 := by omega
            have hr1 : rQ buffer half 1 = dQ buffer half 1 := by
              simp [rQ, List.range_succ]
            by_cases hd1 : dQ buffer half 1 = 0
            · exfalso
              have hr20 : rQ buffer half 2 = dQ buffer half 2 := by
                have hsucc := rQ_succ buffer half 1
                rw [hr1, hd1, zero_add] at hsucc
                exact hsucc
              have hrT2 : rQ buffer half 2 ≠ 0 := by rw [← hT2e]; exact hrT
              have hd2 : dQ buffer half 2 ≠ 0 := by rw [← hr20]; exact hrT2
              have hs1val : s1 = (2 : ℚ) := by
                rw [hs1vQ, hT2e]
                unfold vQ
                rw [hr20]
                push_cast
                field_simp
              rw [hs1val] at hs1t
              linarith
            · have hr10 : rQ buffer half 1 ≠ 0 := by rw [hr1]; exact hd1
              have hf1 : f 1 = QNum.fin (vQ buffer half 1) := by
                rw [hf]
                exact yinNorm_eq_fin buffer hfin half 1 (le_refl 1) hr10
              have hv1 : vQ buffer half 1 = 1 := by
                unfold vQ
                rw [hr1]
                push_cast
                field_simp
              refine ⟨1, ?_, by linarith⟩
              rw [show T - 1 = 1 by omega, hf1, hv1]
        · have hprevT := hprev hTeq
          rcases hshape (T - 1) (by omega) with ⟨w, hwnn, hw⟩ | hnan
          · refine ⟨w, hw, ?_⟩
            rw [hs1, hw] at hprevT
            simpa [QNum.blt] using hprevT
          · exfalso
            rw [hs1, hnan] at hprevT
            simp [QNum.blt] at hprevT
      obtain ⟨w, hw, hs1w⟩ := hs0
      rw [if_neg (show ¬ T < 1 by omega)] at hveq
      rw [if_pos hx2] at hveq
      rw [if_neg (show ¬ (T - 1 = T) by omega)] at hveq
      rw [if_neg (show ¬ (T + 1 = T) by omega)] at hveq
      rw [hs1, hfT1, hw] at hveq
      obtain ⟨q, hq, heq⟩ := qnum_parabola r s1 (vQ buffer half (T + 1)) w (T : ℚ)
        hr (by exact_mod_cast hT2) hs2ge hs1w
      rw [heq] at hveq
      exact ⟨q, hq, hveq.symm⟩
    · -- boundary case: tauEstimate + 1 is outside the buffer
      rw [if_neg (show ¬ T < 1 by omega)] at hveq
      rw [if_neg hx2] at hveq
      rw [if_neg (show ¬ (T - 1 = T) by omega)] at hveq
      rw [if_pos rfl] at hveq
      have hTq : (0 : ℚ) < (T : ℚ) := by exact_mod_cast (show 0 < T by omega)
      have hTq1 : (0 : ℚ) < ((T - 1 : ℕ) : ℚ) := by
        exact_mod_cast (show 0 < T - 1 by omega)
      by_cases hble : (f T).ble (f (T - 1)) = true
      · rw [if_pos hble] at hveq
        obtain ⟨q, hq, heq⟩ := qnum_div_fin_pos r (T : ℚ) hr hTq
        rw [heq] at hveq
        exact ⟨q, hq, hveq.symm⟩
      · rw [if_neg hble] at hveq
        obtain ⟨q, hq, heq⟩ := qnum_div_fin_pos r ((T - 1 : ℕ) : ℚ) hr hTq1
        rw [heq] at hveq
        exact ⟨q, hq, hveq.symm⟩

/-- Claim C1: for every buffer length, `detectPitchYIN` applied to an all-zero
sample buffer returns `none` ("no pitch"), never `0` Hz and never NaN.  On
silence every raw difference `d(tau)` is `0`, so the running sum stays `0` and
the cumulative-mean normalisation computes `0 * (tau / 0) = 0 * Infinity = NaN`
for every `tau ≥ 1`; since `NaN < threshold` is false, the step-3 scan never
locks an estimate and the function returns the explicit absent result.  This
holds for every sample rate and every threshold. -/
theorem detectPitchYIN_silence_none (n : ℕ) (sampleRate threshold : QNum) :
    detectPitchYIN (List.replicate n (QNum.fin 0)) sampleRate threshold = none := by
  have hnorm : ∀ tau, 1 ≤ tau → (yinNorm (List.replicate n (QNum.fin 0))
      ((List.replicate n (QNum.fin 0)).length / 2) tau).blt threshold = false := by
    intro tau htau
    rw [yinNorm_replicate_nan _ _ _ htau]
    cases threshold <;> rfl
  have hfind := yinFindTau_none
    (yinNorm (List.replicate n (QNum.fin 0)) ((List.replicate n (QNum.fin 0)).length / 2))
    threshold ((List.replicate n (QNum.fin 0)).length / 2) hnorm
    ((List.replicate n (QNum.fin 0)).length / 2) 2 (by omega)
  simp only [detectPitchYIN, hfind, Option.map_none']

/-- A concrete period-2 sample window on which YIN locks an estimate: used to
exercise `detectPitchYIN_positive` at a successful detection. -/
def yinWitnessBuffer : List QNum :=
  [QNum.fin 1, QNum.fin (-1), QNum.fin 1, QNum.fin (-1), QNum.fin 1, QNum.fin (-1)]

/-- Witness for claim C2: on the period-2 window, with sample rate 44100 and the
default threshold 0.1, YIN returns 22050 Hz, and the theorem yields its strict
positivity. -/
theorem detectPitchYIN_positive_witness :
    ∃ q : ℚ, 0 < q ∧ QNum.fin 22050 = QNum.fin q := by
  apply detectPitchYIN_positive yinWitnessBuffer 44100 (1/10) (QNum.fin 22050)
  · decide
  · norm_num
  · norm_num
  · norm_num [detectPitchYIN, yinWitnessBuffer, yinFindTau, yinDescend, yinRefine, yinNorm,
      yinRunningSum, yinDiff, yinGet, QNum.add, QNum.sub, QNum.mul, QNum.div, QNum.blt,
      QNum.ble, List.range_succ, List.getD]

/-! ### Spectral features (src/utils/audioAnalysis.ts lines 30-118, 164-215)

`binScan minBin maxBin len` is the exact set of indices visited by the JS loop
`for (let i = minBin; i < maxBin && i < len; i++)`, in ascending order, and
`peakScan` the indices visited by the peak loop
`for (let i = minBin + 1; i < maxBin - 1 && i < len - 1; i++)`.  Bin indices
derived from a non-negative frequency with positive sample rate and transform
size are non-negative, so iterating over naturals is faithful there; ℚ division
is total (`x / 0 = 0`) so the stated theorems carry positivity hypotheses on
`sampleRate` and `fftSize`, the region where the model agrees with JS. -/

def binToFrequency (binIndex : ℕ) (sampleRate : ℚ) (fftSize : ℚ) : ℚ :=
  (binIndex * sampleRate) / fftSize

def frequencyToBin (frequency : ℚ) (sampleRate : ℚ) (fftSize : ℚ) : ℤ :=
  round ((frequency * fftSize) / sampleRate)

def binScan (minBin maxBin : ℤ) (len : ℕ) : List ℕ :=
  (List.range len).filter (fun i => decide (minBin ≤ (i : ℤ) ∧ (i : ℤ) < maxBin))

def peakScan (minBin maxBin : ℤ) (len : ℕ) : List ℕ :=
  (List.range len).filter
    (fun i => decide (minBin + 1 ≤ (i : ℤ) ∧ (i : ℤ) < maxBin - 1 ∧ (i : ℤ) < (len : ℤ) - 1))

def getDominantFrequency (frequencyData : List ℕ) (sampleRate fftSize minFreq maxFreq : ℚ) :
    Option ℚ :=
  let minBin := frequencyToBin minFreq sampleRate fftSize
  let maxBin := frequencyToBin maxFreq sampleRate fftSize
  let best := (binScan minBin maxBin frequencyData.length).foldl
    (fun best i =>
      if best.1 < frequencyData.getD i 0 then (frequencyData.getD i 0, i) else best)
    (0, 0)
  if best.1 < 100 then none else some (binToFrequency best.2 sampleRate fftSize)

structure FrequencyPeak where
  frequency : ℚ
  amplitude : ℕ
deriving DecidableEq

def getFrequencyPeaks (frequencyData : List ℕ) (sampleRate fftSize : ℚ) (numPeaks : ℕ)
    (minFreq maxFreq : ℚ) (threshold : ℕ) : List FrequencyPeak :=
  let minBin := frequencyToBin minFreq sampleRate fftSize
  let maxBin := frequencyToBin maxFreq sampleRate fftSize
  let peaks := (peakScan minBin maxBin frequencyData.length).filterMap
    (fun i =>
      if frequencyData.getD (i - 1) 0 < frequencyData.getD i 0 ∧
          frequencyData.getD (i + 1) 0 < frequencyData.getD i 0 ∧
          threshold < frequencyData.getD i 0 then
        some ⟨binToFrequency i sampleRate fftSize, frequencyData.getD i 0⟩
      else none)
  (peaks.mergeSort (fun a b => decide (b.amplitude ≤ a.amplitude))).take numPeaks

def calculateSpectralCentroid (frequencyData : List ℕ) (sampleRate fftSize : ℚ) : ℚ :=
  let weightedSum := (List.range frequencyData.length).foldl
    (fun s i => s + binToFrequency i sampleRate fftSize * (frequencyData.getD i 0 : ℚ)) 0
  let magnitudeSum : ℚ :=
    (List.range frequencyData.length).foldl (fun s i => s + (frequencyData.getD i 0 : ℚ)) 0
  if 0 < magnitudeSum then weightedSum / magnitudeSum else 0

structure BandEnergy where
  subBass : ℚ
  bass : ℚ
  lowMid : ℚ
  mid : ℚ
  highMid : ℚ
  presence : ℚ
  brilliance : ℚ
deriving DecidableEq

def bandAverage (frequencyData : List ℕ) (sampleRate fftSize lo hi : ℚ) : ℚ :=
  let minBin := frequencyToBin lo sampleRate fftSize
  let maxBin := frequencyToBin hi sampleRate fftSize
  let scan := binScan minBin maxBin frequencyData.length
  let sum : ℚ := scan.foldl (fun s i => s + (frequencyData.getD i 0 : ℚ)) 0
  let count := scan.length
  if 0 < count then sum / count else 0

def calculateBandEnergies (frequencyData : List ℕ) (sampleRate fftSize : ℚ) : BandEnergy where
  subBass := bandAverage frequencyData sampleRate fftSize 20 60
  bass := bandAverage frequencyData sampleRate fftSize 60 250
  lowMid := bandAverage frequencyData sampleRate fftSize 250 500
  mid := bandAverage frequencyData sampleRate fftSize 500 2000
  highMid := bandAverage frequencyData sampleRate fftSize 2000 4000
  presence := bandAverage frequencyData sampleRate fftSize 4000 6000
  brilliance := bandAverage frequencyData sampleRate fftSize 6000 20000

/-! ### Helper lemmas for the spectral features -/

theorem binScan_mem_lt (minBin maxBin : ℤ) (len : ℕ) (i : ℕ) (h : i ∈ binScan minBin maxBin len) :
    i < len := by
  unfold binScan at h
  rw [List.mem_filter] at h
  exact List.mem_range.mp h.1

theorem foldl_sum_const (fd : List ℕ) (c : ℚ) :
    ∀ (scan : List ℕ) (a : ℚ), (∀ i ∈ scan, (fd.getD i 0 : ℚ) = c) →
      scan.foldl (fun s i => s + (fd.getD i 0 : ℚ)) a = a + c * scan.length := by
  intro scan
  induction scan with
  | nil => intro a _; simp
  | cons x xs ih =>
    intro a h
    rw [List.foldl_cons, h x (List.mem_cons_self x xs), ih (a + c)
      (fun i hi => h i (List.mem_cons_of_mem x hi)), List.length_cons]
    push_cast
    ring

theorem getD_replicate_val (len : ℕ) (v : ℕ) (i : ℕ) (h : i < len) :
    (List.replicate len v).getD i 0 = v := by
  induction len generalizing i with
  | zero => omega
  | succ m ih =>
    cases i with
    | zero => simp [List.replicate, List.getD]
    | succ j =>
      have := ih j (by omega)
      simpa [List.replicate, List.getD] using this

theorem bandAverage_uniform (len : ℕ) (sr fs lo hi : ℚ) :
    bandAverage (List.replicate len 100) sr fs lo hi =
      if (binScan (frequencyToBin lo sr fs) (frequencyToBin hi sr fs) len).length = 0 then 0
      else 100 := by
  simp only [bandAverage]
  have hlen : (List.replicate len (100 : ℕ)).length = len := List.length_replicate len 100
  rw [hlen]
  have hsum := foldl_sum_const (List.replicate len 100) 100
    (binScan (frequencyToBin lo sr fs) (frequencyToBin hi sr fs) len) 0
    (fun i hi => by
      rw [getD_replicate_val len 100 i (binScan_mem_lt _ _ _ _ hi)]
      norm_num)
  rw [hsum, zero_add]
  by_cases hc : (binScan (frequencyToBin lo sr fs) (frequencyToBin hi sr fs) len).length = 0
  · rw [if_neg (by omega), if_pos hc]
  · rw [if_pos (by omega), if_neg hc]
    have hq : ((binScan (frequencyToBin lo sr fs) (frequencyToBin hi sr fs) len).length : ℚ) ≠ 0 := by
      exact_mod_cast hc
    field_simp

/-- Claim C6: on a spectrum with uniform magnitude 100 across all of its bins,
`calculateBandEnergies` computes exactly 100 for every one of the seven fixed
bands whose bin range contributes at least one bin, and exactly 0 for a band
whose bin range contributes no bins (the average is taken over the bins in
`[bin(lo), bin(hi))` clamped to the spectrum length).  Stated for every
spectrum length, sample rate and transform size. -/
theorem calculateBandEnergies_uniform (len : ℕ) (sr fs : ℚ) :
    (calculateBandEnergies (List.replicate len 100) sr fs).subBass =
      (if (binScan (frequencyToBin 20 sr fs) (frequencyToBin 60 sr fs) len).length = 0
        then 0 else 100) ∧
    (calculateBandEnergies (List.replicate len 100) sr fs).bass =
      (if (binScan (frequencyToBin 60 sr fs) (frequencyToBin 250 sr fs) len).length = 0
        then 0 else 100) ∧
    (calculateBandEnergies (List.replicate len 100) sr fs).lowMid =
      (if (binScan (frequencyToBin 250 sr fs) (frequencyToBin 500 sr fs) len).length = 0
        then 0 else 100) ∧
    (calculateBandEnergies (List.replicate len 100) sr fs).mid =
      (if (binScan (frequencyToBin 500 sr fs) (frequencyToBin 2000 sr fs) len).length = 0
        then 0 else 100) ∧
    (calculateBandEnergies (List.replicate len 100) sr fs).highMid =
      (if (binScan (frequencyToBin 2000 sr fs) (frequencyToBin 4000 sr fs) len).length = 0
        then 0 else 100) ∧
    (calculateBandEnergies (List.replicate len 100) sr fs).presence =
      (if (binScan (frequencyToBin 4000 sr fs) (frequencyToBin 6000 sr fs) len).length = 0
        then 0 else 100) ∧
    (calculateBandEnergies (List.replicate len 100) sr fs).brilliance =
      (if (binScan (frequencyToBin 6000 sr fs) (frequencyToBin 20000 sr fs) len).length = 0
        then 0 else 100) := by
  refine ⟨?_, ?_, ?_, ?_, ?_, ?_, ?_⟩ <;>
    exact bandAverage_uniform len sr fs _ _

theorem round_nonneg_q (x : ℚ) (h : 0 ≤ x) : 0 ≤ round x := by
  rw [round_eq]
  exact Int.le_floor.mpr (by push_cast; linarith)

/-- Claim C10: every bin scan of `getDominantFrequency`, `getFrequencyPeaks` and
`calculateBandEnergies` is clamped to the spectrum buffer's length, so only
indices inside `[0, length)` are read even when the derived bin range extends
past the end of the buffer: the dominant-frequency scan and each band scan only
visit indices below the length, and every index `i` visited by the peak scan
additionally satisfies `1 ≤ i` and `i + 1 < length`, so the three reads at
`i - 1`, `i`, `i + 1` are all in bounds.  Holds for every spectrum buffer, every
`minFreq ≥ 0`, every `maxFreq`, and every positive sample rate and transform
size. -/
theorem spectral_scans_in_bounds (fd : List ℕ) (sr fs minF maxF : ℚ)
    (hminF : 0 ≤ minF) (hsr : 0 < sr) (hfs : 0 < fs) :
    (∀ i ∈ binScan (frequencyToBin minF sr fs) (frequencyToBin maxF sr fs) fd.length,
        i < fd.length) ∧
    (∀ i ∈ peakScan (frequencyToBin minF sr fs) (frequencyToBin maxF sr fs) fd.length,
        1 ≤ i ∧ i + 1 < fd.length) ∧
    (∀ lo hi : ℚ, 0 ≤ lo →
        ∀ i ∈ binScan (frequencyToBin lo sr fs) (frequencyToBin hi sr fs) fd.length,
          i < fd.length) := by
  refine ⟨fun i hi => binScan_mem_lt _ _ _ _ hi, ?_, fun lo hi _ i hmem => binScan_mem_lt _ _ _ _ hmem⟩
  intro i hi
  unfold peakScan at hi
  rw [List.mem_filter] at hi
  have hprop := of_decide_eq_true hi.2
  obtain ⟨h1, h2, h3⟩ := hprop
  have hbin : 0 ≤ frequencyToBin minF sr fs := by
    unfold frequencyToBin
    apply round_nonneg_q
    positivity
  constructor
  · omega
  · omega

/-- Witness for claim C10 at a concrete spectrum of length 8 with sample rate
44100, transform size 2048 and the default 80–4000 Hz scan range. -/
theorem spectral_scans_in_bounds_witness :
    (∀ i ∈ binScan (frequencyToBin 80 44100 2048) (frequencyToBin 4000 44100 2048)
        (List.replicate 8 0).length, i < (List.replicate 8 0).length) ∧
    (∀ i ∈ peakScan (frequencyToBin 80 44100 2048) (frequencyToBin 4000 44100 2048)
        (List.replicate 8 0).length, 1 ≤ i ∧ i + 1 < (List.replicate 8 0).length) ∧
    (∀ lo hi : ℚ, 0 ≤ lo →
        ∀ i ∈ binScan (frequencyToBin lo 44100 2048) (frequencyToBin hi 44100 2048)
          (List.replicate 8 0).length, i < (List.replicate 8 0).length) :=
  spectral_scans_in_bounds (List.replicate 8 0) 44100 2048 80 4000
    (by norm_num) (by norm_num) (by norm_num)

/-! ### Real-number model of JS numbers (beat detector, note mapper)

The beat detector uses `Math.sqrt` and the note mapper uses `Math.log2` /
`Math.pow`, whose exact values are irrational, so this carrier holds exact real
numbers together with the IEEE special values.  Arithmetic mirrors `QNum`;
comparisons are propositional (`ltP`), matching the JS comparison semantics in
which any comparison against NaN is false. -/

inductive RNum where
  | fin (x : ℝ)
  | inf
  | ninf
  | nan

namespace RNum

noncomputable def add : RNum → RNum → RNum
  | nan, _ => nan
  | _, nan => nan
  | fin a, fin b => fin (a + b)
  | inf, ninf => nan
  | ninf, inf => nan
  | inf, _ => inf
  | _, inf => inf
  | ninf, _ => ninf
  | _, ninf => ninf

noncomputable def mul : RNum → RNum → RNum
  | nan, _ => nan
  | _, nan => nan
  | fin a, fin b => fin (a * b)
  | fin a, inf => if a = 0 then nan else if 0 < a then inf else ninf
  | inf, fin a => if a = 0 then nan else if 0 < a then inf else ninf
  | fin a, ninf => if a = 0 then nan else if 0 < a then ninf else inf
  | ninf, fin a => if a = 0 then nan else if 0 < a then ninf else inf
  | inf, inf => inf
  | inf, ninf => ninf
  | ninf, inf => ninf
  | ninf, ninf => inf

noncomputable def div : RNum → RNum → RNum
  | nan, _ => nan
  | _, nan => nan
  | fin a, fin b =>
    if b = 0 then (if a = 0 then nan else if 0 < a then inf else ninf)
    else fin (a / b)
  | fin _, inf => fin 0
  | fin _, ninf => fin 0
  | inf, fin b => if 0 ≤ b then inf else ninf
  | ninf, fin b => if 0 ≤ b then ninf else inf
  | inf, inf => nan
  | inf, ninf => nan
  | ninf, inf => nan
  | ninf, ninf => nan

noncomputable def sqrt : RNum → RNum
  | fin x => if x < 0 then nan else fin (Real.sqrt x)
  | inf => inf
  | ninf => nan
  | nan => nan

def ltP : RNum → RNum → Prop
  | nan, _ => False
  | _, nan => False
  | fin a, fin b => a < b
  | fin _, inf => True
  | inf, fin _ => False
  | inf, inf => False
  | ninf, fin _ => True
  | fin _, ninf => False
  | ninf, inf => True
  | inf, ninf => False
  | ninf, ninf => False

end RNum

/-! ### `detectBeat` / `resetBeatDetection` (src/utils/audioAnalysis.ts lines 120-162)

The module-level mutable `energyHistory` array is threaded through `detectBeat`
explicitly: the second component of the result is the new history.  `bassEnergy`
is the per-call energy `sqrt(mean(spectrum[0..bassRange)^2))` with
`bassRange = floor(length * 0.1)` (which is `length / 10` in ℕ, exactly the JS
floor of the product).  The squares and their sum are integers, hence exact in
JS doubles; the final `sqrt` and division live in `RNum`, so a zero-length
spectrum produces `sqrt(0 / 0) = NaN` exactly as the JS code does. -/

structure BeatInfo where
  isBeat : Prop
  energy : RNum
  averageEnergy : RNum

def HISTORY_SIZE : ℕ := 43

noncomputable def bassEnergy (frequencyData : List ℕ) : RNum :=
  let bassRange := frequencyData.length / 10
  let sumSquares : ℕ := (List.range bassRange).foldl
    (fun e i => e + frequencyData.getD i 0 * frequencyData.getD i 0) 0
  RNum.sqrt ((RNum.fin (sumSquares : ℝ)).div (RNum.fin (bassRange : ℝ)))

noncomputable def detectBeat (frequencyData : List ℕ) (sensitivity : RNum)
    (history : List RNum) : BeatInfo × List RNum :=
  let energy := bassEnergy frequencyData
  let pushed := history ++ [energy]
  let trimmed := if HISTORY_SIZE < pushed.length then pushed.tail else pushed
  let averageEnergy := (trimmed.foldl RNum.add (RNum.fin 0)).div (RNum.fin (trimmed.length : ℝ))
  let isBeat := RNum.ltP (averageEnergy.mul sensitivity) energy ∧ RNum.ltP (RNum.fin 50) energy
  (⟨isBeat, energy, averageEnergy⟩, trimmed)

noncomputable def resetBeatDetection (history : List RNum) : List RNum := []

inductive BeatOp where
  | detect (spectrum : List ℕ) (sensitivity : RNum)
  | reset

noncomputable def runBeatOps (ops : List BeatOp) : List RNum :=
  ops.foldl
    (fun history op =>
      match op with
      | BeatOp.detect spectrum sensitivity => (detectBeat spectrum sensitivity history).2
      | BeatOp.reset => resetBeatDetection history)
    []

/-! ### Helper lemmas for the beat detector -/

theorem detectBeat_history_step (frequencyData : List ℕ) (sensitivity : RNum)
    (history : List RNum) (h : history.length ≤ HISTORY_SIZE) :
    (detectBeat frequencyData sensitivity history).2.length ≤ HISTORY_SIZE := by
  simp only [detectBeat]
  by_cases hc : HISTORY_SIZE < (history ++ [bassEnergy frequencyData]).length
  · rw [if_pos hc]
    rw [List.length_tail, List.length_append]
    simp only [List.length_singleton]
    omega
  · rw [if_neg hc]
    omega

/-- Claim C5: the beat-energy history length never exceeds the cap of 43 along
any sequence of `detectBeat` and `resetBeatDetection` calls: each `detectBeat`
pushes one sample and evicts the oldest when the cap would be exceeded, and
reset empties the history, so the bound is an invariant of every state
reachable from the empty initial history. -/
theorem beat_history_bounded (ops : List BeatOp) :
    (runBeatOps ops).length ≤ HISTORY_SIZE := by
  unfold runBeatOps
  have h : ∀ (l : List BeatOp) (history : List RNum), history.length ≤ HISTORY_SIZE →
      (l.foldl
        (fun history op =>
          match op with
          | BeatOp.detect spectrum sensitivity => (detectBeat spectrum sensitivity history).2
          | BeatOp.reset => resetBeatDetection history)
        history).length ≤ HISTORY_SIZE := by
    intro l
    induction l with
    | nil => intro history hh; exact hh
    | cons op ops ih =>
      intro history hh
      rw [List.foldl_cons]
      cases op with
      | detect spectrum sensitivity =>
        exact ih _ (detectBeat_history_step spectrum sensitivity history hh)
      | reset => exact ih _ (by simp [resetBeatDetection])
  exact h ops [] (by simp [HISTORY_SIZE])

theorem rnum_zero_add (e : RNum) : (RNum.fin 0).add e = e := by
  cases e <;> simp [RNum.add]

theorem rnum_div_one (e : RNum) : e.div (RNum.fin 1) = e := by
  cases e <;> simp [RNum.div]

/-- Claim C8: immediately after `resetBeatDetection` the history is empty, and
the very next `detectBeat` call reports an `averageEnergy` equal to that same
call's `energy`, the history then holding exactly that one sample. -/
theorem beat_reset_next_average (history : List RNum) (spectrum : List ℕ)
    (sensitivity : RNum) :
    resetBeatDetection history = [] ∧
    (detectBeat spectrum sensitivity (resetBeatDetection history)).1.averageEnergy =
      (detectBeat spectrum sensitivity (resetBeatDetection history)).1.energy ∧
    (detectBeat spectrum sensitivity (resetBeatDetection history)).2.length = 1 := by
  refine ⟨rfl, ?_, ?_⟩
  · simp only [detectBeat, resetBeatDetection]
    rw [if_neg (by simp [HISTORY_SIZE])]
    simp only [List.nil_append, List.foldl_cons, List.foldl_nil, List.length_singleton]
    rw [rnum_zero_add]
    push_cast
    rw [rnum_div_one]
  · simp only [detectBeat, resetBeatDetection]
    rw [if_neg (by simp [HISTORY_SIZE])]
    simp

theorem bassEnergy_shape (fd : List ℕ) :
    bassEnergy fd = RNum.nan ∨ ∃ x : ℝ, 0 ≤ x ∧ bassEnergy fd = RNum.fin x := by
  simp only [bassEnergy]
  by_cases hbr : fd.length / 10 = 0
  · left
    rw [hbr]
    simp [RNum.div, RNum.sqrt]
  · right
    have hne : ((fd.length / 10 : ℕ) : ℝ) ≠ 0 := Nat.cast_ne_zero.mpr hbr
    have hq : (0 : ℝ) ≤
        (((List.range (fd.length / 10)).foldl
          (fun e i => e + fd.getD i 0 * fd.getD i 0) 0 : ℕ) : ℝ) /
          ((fd.length / 10 : ℕ) : ℝ) := by
      apply div_nonneg (by positivity) (by positivity)
    refine ⟨Real.sqrt
      ((((List.range (fd.length / 10)).foldl
        (fun e i => e + fd.getD i 0 * fd.getD i 0) 0 : ℕ) : ℝ) /
        ((fd.length / 10 : ℕ) : ℝ)), Real.sqrt_nonneg _, ?_⟩
    simp only [RNum.div]
    rw [if_neg hne]
    simp only [RNum.sqrt]
    rw [if_neg (by linarith)]

/-- Claim C7 evaluation (the code-side behaviour at the failing input): on a
zero-length spectrum, `detectBeat` does not fail but its bass range is 0, so it
computes `energy = sqrt(0 / 0) = NaN`, pushes NaN into the history, and reports
`averageEnergy = NaN`; `isBeat` is false (every comparison against NaN is
false), but the reported energy is NaN, not the 0 the specification requires
for "no data" inputs. -/
theorem detectBeat_empty_spectrum_nan :
    (detectBeat [] (RNum.fin (13/10)) []).1.energy = RNum.nan ∧
    (detectBeat [] (RNum.fin (13/10)) []).1.averageEnergy = RNum.nan ∧
    ¬ (detectBeat [] (RNum.fin (13/10)) []).1.isBeat := by
  have hbe : bassEnergy [] = RNum.nan := by
    simp only [bassEnergy]
    simp [RNum.div, RNum.sqrt]
  refine ⟨?_, ?_, ?_⟩
  · simp only [detectBeat]
    exact hbe
  · simp only [detectBeat, hbe]
    rw [if_neg (by simp [HISTORY_SIZE])]
    simp only [List.nil_append, List.foldl_cons, List.foldl_nil, List.length_singleton]
    rw [rnum_zero_add]
    push_cast
    rw [rnum_div_one]
  · simp only [detectBeat, hbe]
    intro hcontra
    obtain ⟨h1, h2⟩ := hcontra
    simp [RNum.ltP] at h2

theorem bassEnergy_rep10_80 : bassEnergy (List.replicate 10 80) = RNum.fin 80 := by
  show RNum.sqrt ((RNum.fin ((6400 : ℕ) : ℝ)).div (RNum.fin ((1 : ℕ) : ℝ))) = RNum.fin 80
  simp only [RNum.div]
  rw [if_neg (by norm_num : ¬ ((1 : ℕ) : ℝ) = 0)]
  simp only [RNum.sqrt]
  rw [if_neg (by norm_num : ¬ ((6400 : ℕ) : ℝ) / ((1 : ℕ) : ℝ) < 0)]
  have h80 : ((6400 : ℕ) : ℝ) / ((1 : ℕ) : ℝ) = 80 ^ 2 := by norm_num
  rw [h80, Real.sqrt_sq (by norm_num : (0:ℝ) ≤ 80)]

/-- Claim C4: on every call, `detectBeat` computes the bass energy of the
spectrum, pushes it into the history (evicting the oldest sample past the cap),
reports `averageEnergy` as the mean of the post-push history, and reports
`isBeat` iff `energy > averageEnergy * sensitivity` and `energy > 50`.  In
particular, with the history primed with ten samples at baseline 20, a call
whose bass energy is 80 at sensitivity 1.3 reports a beat; and at sensitivity
1.3, whenever the call's energy equals the reported rolling average, no beat is
reported. -/
theorem detectBeat_rule :
    (∀ (spectrum : List ℕ) (sensitivity : RNum) (history : List RNum),
      (detectBeat spectrum sensitivity history).1.energy = bassEnergy spectrum ∧
      (detectBeat spectrum sensitivity history).2 =
        (if HISTORY_SIZE < (history ++ [bassEnergy spectrum]).length
          then (history ++ [bassEnergy spectrum]).tail
          else history ++ [bassEnergy spectrum]) ∧
      (detectBeat spectrum sensitivity history).1.averageEnergy =
        ((detectBeat spectrum sensitivity history).2.foldl RNum.add (RNum.fin 0)).div
          (RNum.fin ((detectBeat spectrum sensitivity history).2.length : ℝ)) ∧
      ((detectBeat spectrum sensitivity history).1.isBeat ↔
        RNum.ltP
            (((detectBeat spectrum sensitivity history).1.averageEnergy).mul sensitivity)
            ((detectBeat spectrum sensitivity history).1.energy) ∧
          RNum.ltP (RNum.fin 50) ((detectBeat spectrum sensitivity history).1.energy))) ∧
    (detectBeat (List.replicate 10 80) (RNum.fin (13/10))
      (List.replicate 10 (RNum.fin 20))).1.isBeat ∧
    (∀ (spectrum : List ℕ) (history : List RNum),
      (detectBeat spectrum (RNum.fin (13/10)) history).1.energy =
        (detectBeat spectrum (RNum.fin (13/10)) history).1.averageEnergy →
      ¬ (detectBeat spectrum (RNum.fin (13/10)) history).1.isBeat) := by
  refine ⟨fun spectrum sensitivity history => ⟨rfl, rfl, rfl, Iff.rfl⟩, ?_, ?_⟩
  · -- the spiking-energy scenario
    simp only [detectBeat, bassEnergy_rep10_80]
    rw [if_neg (by norm_num [HISTORY_SIZE, List.length_append, List.length_replicate])]
    rw [show List.replicate 10 (RNum.fin 20) ++ [RNum.fin 80] =
      [RNum.fin 20, RNum.fin 20, RNum.fin 20, RNum.fin 20, RNum.fin 20, RNum.fin 20,
       RNum.fin 20, RNum.fin 20, RNum.fin 20, RNum.fin 20, RNum.fin 80] from rfl]
    simp only [List.foldl_cons, List.foldl_nil, RNum.add, List.length_cons,
      List.length_nil]
    simp only [RNum.div]
    rw [if_neg (by norm_num : ¬ ((10 + 1 : ℕ) : ℝ) = 0)]
    simp only [RNum.mul, RNum.ltP]
    norm_num
  · -- energy equal to the rolling average never reports a beat
    intro spectrum history heq hbeat
    simp only [detectBeat] at heq hbeat
    obtain ⟨h1, h2⟩ := hbeat
    rw [← heq] at h1
    rcases bassEnergy_shape spectrum with hnan | ⟨x, hx0, hfin⟩
    · rw [hnan] at h2
      simp [RNum.ltP] at h2
    · rw [hfin] at h1
      simp only [RNum.mul, RNum.ltP] at h1
      linarith

/-- Witness for claim C4: on the first call after a fresh history the average
equals the call's own energy, so even an energy of 80 reports no beat at
sensitivity 1.3. -/
theorem detectBeat_rule_witness :
    ¬ (detectBeat (List.replicate 10 80) (RNum.fin (13/10)) []).1.isBeat := by
  apply detectBeat_rule.2.2 (List.replicate 10 80) []
  simp only [detectBeat, bassEnergy_rep10_80]
  rw [if_neg (by norm_num [HISTORY_SIZE])]
  simp only [List.nil_append, List.foldl_cons, List.foldl_nil, List.length_singleton]
  rw [rnum_zero_add]
  push_cast
  rw [rnum_div_one]

/-! ### Note mapper (src/utils/pitchDetection.ts lines 1-41, 134-154)

`Math.log2` is `Real.logb 2`, `Math.pow` is real exponentiation, `Math.round`
is Mathlib's `round` (both round half toward positive infinity), `Math.floor`
of an integer quotient is `Int.floor` of the exact quotient, and the JS `%` on
integer-valued doubles is `Int.tmod` (truncated, sign of the dividend).
`NOTE_NAMES.indexOf(note)` with its `-1` failure sentinel is `findIdx?` with
`none`. -/

def NOTE_NAMES : List String :=
  ["C", "C#", "D", "D#", "E", "F"] ++ ["F#", "G", "G#", "A", "A#", "B"]

structure PitchResult where
  frequency : RNum
  note : String
  octave : ℤ
  cents : ℤ

noncomputable def frequencyToNote (frequency : RNum) : Option PitchResult :=
  match frequency with
  | RNum.fin x =>
    if x ≤ 0 then none
    else
      let semitones : ℝ := 12 * Real.logb 2 (x / 440)
      let roundedSemitones : ℤ := round semitones
      let cents : ℤ := round ((semitones - (roundedSemitones : ℝ)) * 100)
      let noteIndex : ℤ := (roundedSemitones + 9).tmod 12
      let octave : ℤ := ⌊((roundedSemitones + 9 : ℤ) : ℝ) / 12⌋ + 4
      some ⟨RNum.fin x,
        NOTE_NAMES.getD (if 0 ≤ noteIndex then noteIndex else noteIndex + 12).toNat "",
        octave, cents⟩
  | _ => none

noncomputable def noteToFrequency (note : String) (octave : ℤ) : RNum :=
  match NOTE_NAMES.findIdx? (fun s => s == note) with
  | none => RNum.fin 0
  | some noteIndex =>
    RNum.fin (440 * (2 : ℝ) ^ ((((noteIndex : ℤ) - 9 + (octave - 4) * 12 : ℤ) : ℝ) / 12))

structure PianoNote where
  note : String
  octave : ℤ
  frequency : RNum

noncomputable def getPianoNotes : List PianoNote :=
  (List.range 9).flatMap (fun octave =>
    (List.range 12).filterMap (fun noteIndex =>
      if octave = 0 ∧ noteIndex < 9 then none
      else if octave = 8 ∧ 0 < noteIndex then none
      else some ⟨NOTE_NAMES.getD noteIndex "", (octave : ℤ),
        noteToFrequency (NOTE_NAMES.getD noteIndex "") (octave : ℤ)⟩))

/-! ### Helper lemmas for the note mapper -/

theorem tmod_twelve_cases (d : ℤ) : d.tmod 12 = d % 12 ∨ d.tmod 12 = d % 12 - 12 := by
  cases d with
  | ofNat m =>
    left
    exact Int.tmod_eq_emod (Int.ofNat_nonneg m) (by norm_num)
  | negSucc m =>
    have h1 : (Int.negSucc m).tmod 12 = -(((m + 1) % 12 : ℕ) : ℤ) := rfl
    have h2 : (Int.negSucc m) = -((m + 1 : ℕ) : ℤ) := by
      simp [Int.negSucc_eq]
    have h3 : (((m + 1) % 12 : ℕ) : ℤ) = ((m + 1 : ℕ) : ℤ) % 12 := by push_cast; rfl
    rw [h1, h3, h2]
    omega

theorem tmod_correction (i k : ℤ) (h0 : 0 ≤ i) (h12 : i < 12) :
    (if 0 ≤ (i + k * 12).tmod 12 then (i + k * 12).tmod 12
     else (i + k * 12).tmod 12 + 12) = i := by
  have hemod : (i + k * 12) % 12 = i := by omega
  rcases tmod_twelve_cases (i + k * 12) with h | h <;> rw [h, hemod] <;> omega

theorem floor_add_mul_twelve (i k : ℤ) (h0 : 0 ≤ i) (h12 : i < 12) :
    ⌊((i + k * 12 : ℤ) : ℝ) / 12⌋ = k := by
  rw [Int.floor_eq_iff]
  have hcast : ((i + k * 12 : ℤ) : ℝ) / 12 = (k : ℝ) + (i : ℝ) / 12 := by
    push_cast
    ring
  rw [hcast]
  have hi0 : (0 : ℝ) ≤ (i : ℝ) := by exact_mod_cast h0
  have hi12 : (i : ℝ) < 12 := by exact_mod_cast h12
  constructor
  · have : (0 : ℝ) ≤ (i : ℝ) / 12 := by positivity
    linarith
  · have : (i : ℝ) / 12 < 1 := by
      rw [div_lt_one (by norm_num : (0:ℝ) < 12)]
      exact hi12
    push_cast
    linarith

theorem noteToFrequency_valid (i : ℕ) (hi : i < 12) (octave : ℤ) :
    noteToFrequency (NOTE_NAMES.getD i "") octave =
      RNum.fin (440 * (2 : ℝ) ^
        ((((i : ℤ) - 9 + (octave - 4) * 12 : ℤ) : ℝ) / 12)) := by
  have hidx : NOTE_NAMES.findIdx? (fun s => s == NOTE_NAMES.getD i "") = some i := by
    interval_cases i <;> decide
  unfold noteToFrequency
  rw [hidx]

theorem frequencyToNote_inverse (i : ℕ) (hi : i < 12) (octave : ℤ) :
    frequencyToNote (noteToFrequency (NOTE_NAMES.getD i "") octave) =
      some ⟨noteToFrequency (NOTE_NAMES.getD i "") octave, NOTE_NAMES.getD i "",
        octave, 0⟩ := by
  rw [noteToFrequency_valid i hi octave]
  have hpos : (0:ℝ) < 440 * (2 : ℝ) ^ ((((i : ℤ) - 9 + (octave - 4) * 12 : ℤ) : ℝ) / 12) := by
    have h2 := Real.rpow_pos_of_pos (by norm_num : (0:ℝ) < 2)
      ((((i : ℤ) - 9 + (octave - 4) * 12 : ℤ) : ℝ) / 12)
    linarith
  simp only [frequencyToNote]
  rw [if_neg (by linarith)]
  have hsemi : 12 * Real.logb 2
      (440 * (2 : ℝ) ^ ((((i : ℤ) - 9 + (octave - 4) * 12 : ℤ) : ℝ) / 12) / 440) =
      (((i : ℤ) - 9 + (octave - 4) * 12 : ℤ) : ℝ) := by
    rw [mul_div_cancel_left₀ _ (by norm_num : (440:ℝ) ≠ 0)]
    rw [Real.logb_rpow (by norm_num) (by norm_num)]
    rw [mul_div_assoc']
    rw [mul_div_cancel_left₀ _ (by norm_num : (12:ℝ) ≠ 0)]
  rw [hsemi, round_intCast]
  have hs9 : ((i : ℤ) - 9 + (octave - 4) * 12) + 9 = (i : ℤ) + (octave - 4) * 12 := by ring
  rw [hs9]
  rw [tmod_correction (i : ℤ) (octave - 4) (by positivity) (by exact_mod_cast hi)]
  rw [floor_add_mul_twelve (i : ℤ) (octave - 4) (by positivity) (by exact_mod_cast hi)]
  simp only [sub_self, zero_mul, round_zero, Int.toNat_natCast]
  have hoct : octave - 4 + 4 = octave := by ring
  rw [hoct]

theorem noteToFrequency_A4 : noteToFrequency "A" 4 = RNum.fin 440 := by
  have hidx : NOTE_NAMES.findIdx? (fun s => s == "A") = some 9 := by decide
  unfold noteToFrequency
  rw [hidx]
  norm_num [Real.rpow_zero]

theorem frequencyToNote_440 :
    frequencyToNote (RNum.fin 440) = some ⟨RNum.fin 440, "A", 4, 0⟩ := by
  simp only [frequencyToNote]
  rw [if_neg (by norm_num : ¬ (440:ℝ) ≤ 0)]
  have h1 : (440:ℝ) / 440 = 1 := by norm_num
  rw [h1, Real.logb_one, mul_zero, round_zero]
  have h9 : ((0:ℤ) + 9).tmod 12 = 9 := by decide
  rw [h9]
  rw [if_pos (by norm_num : (0:ℤ) ≤ 9)]
  have hfloor : ⌊(((0:ℤ) + 9 : ℤ) : ℝ) / 12⌋ = 0 := by
    norm_num [Int.floor_eq_iff]
  rw [hfloor]
  norm_num
  rfl

/-- Claim C3: for every entry of the standard piano range A0..C8 (as produced by
`getPianoNotes`), `frequencyToNote (noteToFrequency note octave)` recovers the
same note and the same octave with cents exactly 0 (which is within the claimed
±1); moreover `noteToFrequency "A" 4` is exactly 440 and
`frequencyToNote 440` is note "A", octave 4, cents 0. -/
theorem noteMapper_roundtrip (p : PianoNote) (hp : p ∈ getPianoNotes) :
    frequencyToNote p.frequency = some ⟨p.frequency, p.note, p.octave, 0⟩ ∧
    noteToFrequency "A" 4 = RNum.fin 440 ∧
    frequencyToNote (RNum.fin 440) = some ⟨RNum.fin 440, "A", 4, 0⟩ := by
  refine ⟨?_, noteToFrequency_A4, frequencyToNote_440⟩
  unfold getPianoNotes at hp
  rw [List.mem_flatMap] at hp
  obtain ⟨oct, hoct, hp2⟩ := hp
  rw [List.mem_filterMap] at hp2
  obtain ⟨ni, hni, hg⟩ := hp2
  have hni12 : ni < 12 := List.mem_range.mp hni
  by_cases h1 : oct = 0 ∧ ni < 9
  · rw [if_pos h1] at hg
    exact absurd hg (by simp)
  · rw [if_neg h1] at hg
    by_cases h2 : oct = 8 ∧ 0 < ni
    · rw [if_pos h2] at hg
      exact absurd hg (by simp)
    · rw [if_neg h2] at hg
      have hp3 : p = ⟨NOTE_NAMES.getD ni "", (oct : ℤ),
          noteToFrequency (NOTE_NAMES.getD ni "") (oct : ℤ)⟩ :=
        (Option.some_injective _ hg).symm
      rw [hp3]
      exact frequencyToNote_inverse ni hni12 (oct : ℤ)

/-- Witness for claim C3 at the concrete piano entry A4. -/
theorem noteMapper_roundtrip_witness :
    frequencyToNote (noteToFrequency "A" 4) =
      some ⟨noteToFrequency "A" 4, "A", 4, 0⟩ ∧
    noteToFrequency "A" 4 = RNum.fin 440 ∧
    frequencyToNote (RNum.fin 440) = some ⟨RNum.fin 440, "A", 4, 0⟩ := by
  have hmem : (⟨"A", (4 : ℤ), noteToFrequency "A" (4 : ℤ)⟩ : PianoNote) ∈ getPianoNotes := by
    unfold getPianoNotes
    rw [List.mem_flatMap]
    refine ⟨4, by decide, ?_⟩
    rw [List.mem_filterMap]
    refine ⟨9, by decide, ?_⟩
    norm_num
    exact ⟨rfl, rfl⟩
  exact noteMapper_roundtrip ⟨"A", (4 : ℤ), noteToFrequency "A" (4 : ℤ)⟩ hmem

/-- Counterexample for claim C9: for the note name "H", which is outside the
12-name catalog, `noteToFrequency` does not signal the failure by an explicit
absent result — its return type is a plain number and it returns the sentinel
`0`. -/
theorem noteToFrequency_unknown_returns_zero : noteToFrequency "H" 4 = RNum.fin 0 := by
  have hidx : NOTE_NAMES.findIdx? (fun s => s == "H") = none := by decide
  unfold noteToFrequency
  rw [hidx]

/-- Claim C9 as amended: the pitch and note conversions signal failed detection
by explicit absence — `frequencyToNote` returns `none` for every non-positive
or non-finite frequency (and `detectPitchYIN` returns `none` on failure, see the
C1 development) — but `noteToFrequency` is the exception: for every note name
outside the 12-name catalog and every octave it returns the sentinel number `0`
rather than an absent result. -/
theorem failure_signalling (note : String) (octave : ℤ) (h : note ∉ NOTE_NAMES) :
    noteToFrequency note octave = RNum.fin 0 ∧
    (∀ x : ℝ, x ≤ 0 → frequencyToNote (RNum.fin x) = none) ∧
    frequencyToNote RNum.nan = none ∧
    frequencyToNote RNum.inf = none ∧
    frequencyToNote RNum.ninf = none := by
  refine ⟨?_, ?_, rfl, rfl, rfl⟩
  · have hidx : NOTE_NAMES.findIdx? (fun s => s == note) = none := by
      rw [List.findIdx?_eq_none_iff]
      intro x hx
      rw [beq_eq_false_iff_ne]
      intro heq
      exact h (heq ▸ hx)
    unfold noteToFrequency
    rw [hidx]
  · intro x hx
    simp only [frequencyToNote]
    rw [if_pos hx]

/-- Witness for the amended claim C9 at the concrete unknown note name "H". -/
theorem failure_signalling_witness :
    noteToFrequency "H" 0 = RNum.fin 0 ∧
    (∀ x : ℝ, x ≤ 0 → frequencyToNote (RNum.fin x) = none) ∧
    frequencyToNote RNum.nan = none ∧
    frequencyToNote RNum.inf = none ∧
    frequencyToNote RNum.ninf = none :=
  failure_signalling "H" 0 (by decide)
